import Mathlib

/-!
# Crypto price tracker: view derivation, watchlist, price flashes and refresh cycle

A shallow embedding of `src/script.js` (classes `WatchlistManager`, `UIManager`, `App`).

Modelling conventions.

* JavaScript numbers that arrive in the market feed are modelled as integers; a field that is
  `null` or missing is `none`.
* A JavaScript array is a `List`; a `Set` or `Map` is a list in insertion order.
* `Array.prototype.sort` is a stable sort (ECMAScript 2019); it is modelled by insertion sort on
  the relation "the comparator returns a value that is not positive".
* Built-ins whose exact tables are not part of the repository (`String.prototype.toLowerCase`,
  `JSON.parse`, the currency test of `Intl.NumberFormat`) are parameters of the functions that
  call them.
* A method that can throw returns, next to the state it leaves behind, whether it returned
  normally; an exception that leaves an event handler leaves the state as it is at the throw.
* An `async` method is split at its `await`: one function for the part that runs at the call, one
  for the continuation that runs when the awaited promise settles.
-/

namespace CryptoTracker

/-! ## Data model -/

/-- One element of the array returned by the markets endpoint. Only the properties read by the
filter, sort and flash logic are kept. -/
structure Coin where
  id : String
  name : String
  symbol : String
  current_price : Option Int
  market_cap : Option Int
  price_change_percentage_24h : Option Int
  deriving DecidableEq, Repr

/-- What `keyMap[sortKey]` can evaluate to when it is truthy: one of the three strings stored in
the literal, or a member that the literal inherits from `Object.prototype`. -/
inductive KeyMapValue where
  | field (name : String)
  | inherited
  deriving DecidableEq, Repr

/-- Names that every object literal inherits from `Object.prototype`. -/
def objectPrototypeMembers : List String :=
  ["constructor", "__proto__", "hasOwnProperty", "isPrototypeOf", "propertyIsEnumerable",
   "toLocaleString", "toString", "valueOf", "__defineGetter__", "__defineSetter__",
   "__lookupGetter__", "__lookupSetter__"]

/-- The property read `keyMap[sortKey]` of `App.applySort`; `none` is `undefined`. -/
def keyMap (sortKey : String) : Option KeyMapValue :=
  if sortKey = "price" then some (.field "current_price")
  else if sortKey = "market" then some (.field "market_cap")
  else if sortKey = "change" then some (.field "price_change_percentage_24h")
  else if sortKey ∈ objectPrototypeMembers then some .inherited
  else none

/-- The expression `keyMap[this.ui.sortKey] || "market_cap"`: every value of `keyMap` is truthy,
so the right operand is taken exactly when the read is `undefined`. -/
def sortProperty (sortKey : String) : KeyMapValue :=
  match keyMap sortKey with
  | some v => v
  | none => .field "market_cap"

/-- The property read `a[key]`; `none` is `null` or `undefined`. A function or object used as a
property key is converted to a string that names no property of a coin. -/
def Coin.prop (a : Coin) (key : KeyMapValue) : Option Int :=
  match key with
  | .field name =>
    if name = "current_price" then a.current_price
    else if name = "market_cap" then a.market_cap
    else if name = "price_change_percentage_24h" then a.price_change_percentage_24h
    else none
  | .inherited => none

/-- The expression `a[key] ?? 0`. -/
def sortValue (key : KeyMapValue) (a : Coin) : Int :=
  (a.prop key).getD 0

/-- The comparator passed to `sort` in `App.applySort`. -/
def compareCoins (sortKey sortDirection : String) (a b : Coin) : Int :=
  let key := sortProperty sortKey
  let aValue := sortValue key a
  let bValue := sortValue key b
  if sortDirection = "asc" then aValue - bValue else bValue - aValue

/-- The order a comparator induces: `a` may stay in front of `b`. -/
def Precedes {α : Type} (cmp : α → α → Int) (a b : α) : Prop :=
  cmp a b ≤ 0

instance {α : Type} (cmp : α → α → Int) : DecidableRel (Precedes cmp) :=
  fun a b => inferInstanceAs (Decidable (cmp a b ≤ 0))

/-- The built-in `Array.prototype.sort(compareFn)`, a stable sort. -/
def sort {α : Type} (cmp : α → α → Int) (xs : List α) : List α :=
  List.insertionSort (Precedes cmp) xs

/-- The comparator of `applySort` is consistent: the order it induces is transitive. -/
instance precedes_isTrans (k d : String) : IsTrans Coin (Precedes (compareCoins k d)) where
  trans a b c hab hbc := by
    by_cases hd : d = "asc" <;> simp only [Precedes, compareCoins, hd, if_true, if_false]
      at hab hbc ⊢ <;> omega

/-- The comparator of `applySort` is consistent: any two coins are comparable. -/
instance precedes_isTotal (k d : String) : IsTotal Coin (Precedes (compareCoins k d)) where
  total a b := by
    by_cases hd : d = "asc" <;> simp only [Precedes, compareCoins, hd, if_true, if_false]
      <;> omega

/-- The method `App.applySort`. -/
def applySort (sortKey sortDirection : String) (coins : List Coin) : List Coin :=
  sort (compareCoins sortKey sortDirection) coins

/-! ## Local storage and the watchlist -/

/-- The browser's `localStorage`: string keys and string values, in insertion order. -/
abbrev Storage := List (String × String)

/-- The built-in `localStorage.getItem`; `none` is `null`. -/
def Storage.getItem (store : Storage) (key : String) : Option String :=
  match store with
  | [] => none
  | (k, v) :: rest => if k = key then some v else Storage.getItem rest key

/-- The built-in `localStorage.setItem`: an existing key keeps its place. -/
def Storage.setItem (store : Storage) (key value : String) : Storage :=
  match store with
  | [] => [(key, value)]
  | (k, v) :: rest =>
    if k = key then (k, value) :: rest else (k, v) :: Storage.setItem rest key value

/-- The constant `STORAGE_KEYS.watchlist`. -/
def STORAGE_KEYS_watchlist : String := "nova_crypto_watchlist"

/-- The constant `STORAGE_KEYS.currency`. -/
def STORAGE_KEYS_currency : String := "nova_crypto_currency"

/-- A lower-case hexadecimal digit. -/
def hexDigit (n : Nat) : Char :=
  if n < 10 then Char.ofNat (48 + n) else Char.ofNat (87 + n)

/-- How `JSON.stringify` writes one character of a string: the quote and the backslash are
escaped, a control character is written with its short escape or as four hexadecimal digits. -/
def quoteJSONChar (c : Char) : List Char :=
  let backslash := Char.ofNat 92
  if c.toNat = 34 then [backslash, Char.ofNat 34]
  else if c.toNat = 92 then [backslash, backslash]
  else if c.toNat = 8 then [backslash, 'b']
  else if c.toNat = 12 then [backslash, 'f']
  else if c.toNat = 10 then [backslash, 'n']
  else if c.toNat = 13 then [backslash, 'r']
  else if c.toNat = 9 then [backslash, 't']
  else if c.toNat < 32 then
    [backslash, 'u', '0', '0', hexDigit (c.toNat / 16), hexDigit (c.toNat % 16)]
  else [c]

/-- How `JSON.stringify` writes a string value. -/
def quoteJSONString (s : String) : List Char :=
  [Char.ofNat 34] ++ s.data.flatMap quoteJSONChar ++ [Char.ofNat 34]

/-- The built-in `JSON.stringify` on an array of strings. -/
def stringify (xs : List String) : String :=
  String.mk (['['] ++ List.intercalate [','] (xs.map quoteJSONString) ++ [']'])

/-- The outcome of `JSON.parse(stored)` as far as `new Set(...)` can tell it apart: the call
throws, or it returns a value that is not iterable (a number, a boolean, a plain object), or it
returns something whose elements the set takes in order (an array, the characters of a string,
nothing for `null`). Elements are asset ids. -/
inductive Parsed where
  | syntaxError
  | notIterable
  | elements (xs : List String)
  deriving DecidableEq, Repr

/-- The value `WatchlistManager.load` hands to `new Set(...)`. -/
inductive Loaded where
  | notIterable
  | elements (xs : List String)
  deriving DecidableEq, Repr

/-- The class `WatchlistManager`: `items` is a `Set`, kept in insertion order. -/
structure WatchlistManager where
  items : List String
  deriving DecidableEq, Repr

/-- The method `WatchlistManager.load`. The `try` turns a throwing `JSON.parse` into `[]`. -/
def WatchlistManager.load (parse : String → Parsed) (store : Storage) : Loaded :=
  match store.getItem STORAGE_KEYS_watchlist with
  | none => .elements []
  | some stored =>
    if stored = "" then .elements []
    else
      match parse stored with
      | .syntaxError => .elements []
      | .notIterable => .notIterable
      | .elements xs => .elements xs

/-- The built-in `Set.prototype.add` on the insertion-ordered list. -/
def setAdd (items : List String) (x : String) : List String :=
  if x ∈ items then items else items ++ [x]

/-- The built-in `Set.prototype.delete`. -/
def setDelete (items : List String) (x : String) : List String :=
  items.filter (fun y => decide (y ≠ x))

/-- The constructor of `WatchlistManager`: `new Set(this.load())`. It fails with a `TypeError`
(`none`) when the loaded value is not iterable. -/
def WatchlistManager.new (parse : String → Parsed) (store : Storage) : Option WatchlistManager :=
  match WatchlistManager.load parse store with
  | .notIterable => none
  | .elements xs => some { items := xs.foldl setAdd [] }

/-- The method `WatchlistManager.has`. -/
def WatchlistManager.has (w : WatchlistManager) (id : String) : Bool :=
  decide (id ∈ w.items)

/-- The method `WatchlistManager.save`. -/
def WatchlistManager.save (w : WatchlistManager) (store : Storage) : Storage :=
  store.setItem STORAGE_KEYS_watchlist (stringify w.items)

/-- The method `WatchlistManager.toggle`. -/
def WatchlistManager.toggle (w : WatchlistManager) (store : Storage) (id : String) :
    WatchlistManager × Storage :=
  let w' : WatchlistManager :=
    if w.has id then { items := setDelete w.items id } else { items := setAdd w.items id }
  (w', w'.save store)

/-! ## Filtering -/

/-- The built-in `String.prototype.includes`: the search string starts at some position. -/
def includes (s search : String) : Bool :=
  s.data.tails.any (fun t => search.data.isPrefixOf t)

/-- The method `App.applyFilters`, as a function of the fields it reads. The argument
`toLowerCase` is the built-in `String.prototype.toLowerCase`. -/
def applyFilters (toLowerCase : String → String) (coins : List Coin) (currentTab : String)
    (watchlist : WatchlistManager) (sortKey sortDirection : String) (query : String) :
    List Coin :=
  let results := coins
  let results :=
    if currentTab = "watchlist" then results.filter (fun coin => watchlist.has coin.id)
    else results
  let results :=
    if query ≠ "" then
      let lower := toLowerCase query
      results.filter (fun coin =>
        includes (toLowerCase coin.name) lower || includes (toLowerCase coin.symbol) lower)
    else results
  applySort sortKey sortDirection results

/-! ## The table and the price memory (`UIManager`) -/

/-- The class added next to `row-flash` on a table row. -/
inductive Flash where
  | positive
  | negative
  deriving DecidableEq, Repr

/-- One `tr` of the table: the coin it shows, its flash class if any, and whether the watch
button is drawn active. The text of the cells is not modelled. -/
structure Row where
  coin : Coin
  flash : Option Flash
  watching : Bool
  deriving DecidableEq, Repr

/-- The content of the table body: what the page came with, the rows the last `renderTable`
appended with the currency they were formatted in, or the single row "Failed to load data.". -/
inductive TableContent where
  | untouched
  | rows (rs : List Row) (currency : String)
  | failed
  deriving DecidableEq, Repr

/-- The field `previousPrices`, a `Map` from coin id to the price last drawn. -/
abbrev PriceMemory := List (String × Option Int)

/-- The built-in `Map.prototype.get`; `none` is `undefined`. -/
def PriceMemory.get (m : PriceMemory) (id : String) : Option (Option Int) :=
  match m with
  | [] => none
  | (k, v) :: rest => if k = id then some v else PriceMemory.get rest id

/-- The built-in `Map.prototype.set`. -/
def PriceMemory.set (m : PriceMemory) (id : String) (price : Option Int) : PriceMemory :=
  match m with
  | [] => [(id, price)]
  | (k, v) :: rest =>
    if k = id then (k, price) :: rest else (k, v) :: PriceMemory.set rest id price

/-- The class `UIManager`. `tableBody` is `none` when the page has no table body element. -/
structure UIManager where
  tableBody : Option TableContent
  currentTab : String
  sortKey : String
  sortDirection : String
  previousPrices : PriceMemory
  loading : Bool
  deriving DecidableEq, Repr

/-- The constructor of `UIManager`. -/
def UIManager.new (tableBody : Option TableContent) : UIManager :=
  { tableBody := tableBody, currentTab := "all", sortKey := "market_cap",
    sortDirection := "desc", previousPrices := [], loading := false }

/-- The method `UIManager.setActiveTab`. -/
def UIManager.setActiveTab (ui : UIManager) (tab : String) : UIManager :=
  { ui with currentTab := tab }

/-- The method `UIManager.setSort`. -/
def UIManager.setSort (ui : UIManager) (key : String) : UIManager :=
  { ui with sortKey := key, sortDirection := if ui.sortDirection = "asc" then "desc" else "asc" }

/-- The method `UIManager.showLoading`. -/
def UIManager.showLoading (ui : UIManager) (state : Bool) : UIManager :=
  { ui with loading := state }

/-- The flash decision of `renderTable` for one row:
`if (prev && prev !== coin.current_price)` and then
`coin.current_price > prev ? "positive" : "negative"`.
The value `prev` is falsy when it is `undefined`, `null` or `0`. -/
def rowFlash (prev : Option (Option Int)) (current_price : Option Int) : Option Flash :=
  match prev with
  | none => none
  | some none => none
  | some (some p) =>
    if p = 0 then none
    else if some p ≠ current_price then
      some (if current_price.getD 0 > p then Flash.positive else Flash.negative)
    else none

/-- The body of the `forEach` in `renderTable` for one coin: the row that is appended and the
price memory after `this.previousPrices.set(coin.id, coin.current_price)`. -/
def renderRow (watchlist : WatchlistManager) (memory : PriceMemory) (coin : Coin) :
    Row × PriceMemory :=
  let prev := memory.get coin.id
  ({ coin := coin, flash := rowFlash prev coin.current_price, watching := watchlist.has coin.id },
   memory.set coin.id coin.current_price)

/-- Whether building the text of a row throws. The template literal calls `formatCurrency`,
where `Intl.NumberFormat` throws a `RangeError` on a currency code it does not accept, and then
`coin.price_change_percentage_24h.toFixed(2)`, which throws a `TypeError` when the property is
`null` or missing. The argument `acceptsCurrency` says whether `Intl.NumberFormat` accepts
`currency.toUpperCase()` as a currency code. -/
def rowTextThrows (acceptsCurrency : String → Bool) (currency : String) (coin : Coin) : Bool :=
  !acceptsCurrency currency || coin.price_change_percentage_24h.isNone

/-- The `forEach` of `renderTable`: the rows appended, the price memory, and whether the loop
ran to its end. For each coin the previous price is read and the new one recorded first; when
the text of the row cannot be built the exception leaves the loop before the row is appended. -/
def renderRows (acceptsCurrency : String → Bool) (watchlist : WatchlistManager)
    (currency : String) (memory : PriceMemory) : List Coin → List Row × PriceMemory × Bool
  | [] => ([], memory, true)
  | coin :: rest =>
    if rowTextThrows acceptsCurrency currency coin then
      ([], (renderRow watchlist memory coin).2, false)
    else
      ((renderRow watchlist memory coin).1
          :: (renderRows acceptsCurrency watchlist currency (renderRow watchlist memory coin).2
                rest).1,
        (renderRows acceptsCurrency watchlist currency (renderRow watchlist memory coin).2
          rest).2)

/-- The argument object of `renderTable`. -/
structure RenderArgs where
  coins : List Coin
  watchlist : WatchlistManager
  currency : String
  deriving DecidableEq, Repr

/-- The method `UIManager.renderTable`. The second component is `true` when the method returns
and `false` when it throws; in that case the table body holds the rows appended before the
throw. -/
def UIManager.renderTable (acceptsCurrency : String → Bool) (ui : UIManager)
    (args : RenderArgs) : UIManager × Bool :=
  match ui.tableBody with
  | none => (ui, true)
  | some _ =>
    ({ ui with
        tableBody := some (.rows
          (renderRows acceptsCurrency args.watchlist args.currency ui.previousPrices
            args.coins).1 args.currency),
        previousPrices :=
          (renderRows acceptsCurrency args.watchlist args.currency ui.previousPrices
            args.coins).2.1 },
      (renderRows acceptsCurrency args.watchlist args.currency ui.previousPrices
        args.coins).2.2)

/-- The assignment in the `catch` block of `App.fetchAndRender`: if the table body exists, its
content becomes the single row "Failed to load data.". -/
def UIManager.showFailure (ui : UIManager) : UIManager :=
  match ui.tableBody with
  | none => ui
  | some _ => { ui with tableBody := some .failed }

/-! ## The application (`App`) -/

/-- The built-ins of the browser that the application calls and whose tables are not part of
the repository: `String.prototype.toLowerCase`, and whether `Intl.NumberFormat` accepts the
upper-cased form of a string as a currency code. -/
structure Builtins where
  toLowerCase : String → String
  acceptsCurrency : String → Bool

/-- The class `App`, without the chart. -/
structure App where
  ui : UIManager
  watchlist : WatchlistManager
  currency : String
  coins : List Coin
  deriving DecidableEq, Repr

/-- The constructor of `App`; it fails when the constructor of `WatchlistManager` does. -/
def App.new (parse : String → Parsed) (store : Storage) (tableBody : Option TableContent) :
    Option App :=
  match WatchlistManager.new parse store with
  | none => none
  | some watchlist =>
    some { ui := UIManager.new tableBody, watchlist := watchlist,
           currency :=
             match store.getItem STORAGE_KEYS_currency with
             | none => "usd"
             | some c => if c = "" then "usd" else c,
           coins := [] }

/-- The argument `App.renderWithQuery` passes to `renderTable`; `App.render` passes the one for
the default query, the empty string. -/
def App.renderArgs (toLowerCase : String → String) (app : App) (query : String) : RenderArgs :=
  { coins := applyFilters toLowerCase app.coins app.ui.currentTab app.watchlist app.ui.sortKey
      app.ui.sortDirection query,
    watchlist := app.watchlist,
    currency := app.currency }

/-- The method `App.renderWithQuery`. The second component is `false` when `renderTable`
throws. -/
def App.renderWithQuery (env : Builtins) (app : App) (value : String) : App × Bool :=
  ({ app with
      ui := (app.ui.renderTable env.acceptsCurrency (app.renderArgs env.toLowerCase value)).1 },
    (app.ui.renderTable env.acceptsCurrency (app.renderArgs env.toLowerCase value)).2)

/-- The method `App.render`: `applyFilters()` runs with its default argument `""`. The second
component is `false` when `renderTable` throws. -/
def App.render (env : Builtins) (app : App) : App × Bool :=
  app.renderWithQuery env ""

/-- The method `App.handleSearch`. An exception of the rendering leaves the handler and the
application stays as it was at the throw. -/
def App.handleSearch (env : Builtins) (app : App) (value : String) : App :=
  (app.renderWithQuery env value).1

/-- The method `App.handleSort`. An exception of the rendering leaves the handler after the
sort state has been set. -/
def App.handleSort (env : Builtins) (app : App) (key : String) : App :=
  (App.render env { app with ui := app.ui.setSort key }).1

/-- The method `App.handleTab`. An exception of the rendering leaves the handler after the tab
has been set. -/
def App.handleTab (env : Builtins) (app : App) (tab : String) : App :=
  (App.render env { app with ui := app.ui.setActiveTab tab }).1

/-- The method `App.toggleWatch`, with the storage that `save` writes. An exception of the
rendering leaves the handler after the watchlist has been toggled and saved. -/
def App.toggleWatch (env : Builtins) (app : App) (store : Storage)
    (id : String) : App × Storage :=
  ((App.render env { app with watchlist := (app.watchlist.toggle store id).1 }).1,
   (app.watchlist.toggle store id).2)

/-- The part of `App.fetchAndRender` that runs at the call, up to the `await`: the loading
indicator is shown and `fetchMarkets(this.currency)` is started. -/
def App.fetchAndRenderStart (app : App) : App :=
  { app with ui := app.ui.showLoading true }

/-- The part of `App.fetchAndRender` that runs when `fetchMarkets` settles. When the promise
is rejected (`none`) the `catch` block writes the failure row. Otherwise the array replaces
`this.coins` and the table is drawn; if the drawing throws, the same `catch` block writes the
failure row over what was drawn. The `finally` block hides the loading indicator. -/
def App.fetchAndRenderSettle (env : Builtins) (app : App)
    (response : Option (List Coin)) : App :=
  let app1 : App :=
    match response with
    | some data =>
      if (App.render env { app with coins := data }).2 then
        (App.render env { app with coins := data }).1
      else
        { (App.render env { app with coins := data }).1 with
          ui := (App.render env { app with coins := data }).1.ui.showFailure }
    | none => { app with ui := app.ui.showFailure }
  { app1 with ui := app1.ui.showLoading false }

/-- The method `App.fetchAndRender` when nothing else runs between the call and the moment the
request settles. -/
def App.fetchAndRender (env : Builtins) (app : App)
    (response : Option (List Coin)) : App :=
  App.fetchAndRenderSettle env app.fetchAndRenderStart response

/-! ## The running page: handlers, timer and requests in flight -/

/-- How the `fetch` call inside `fetchMarkets` ends: the transport rejects, or a response
arrives with its `ok` flag and the array its body decodes to (`none`: `response.json()`
rejects). -/
inductive FetchOutcome where
  | rejected
  | response (ok : Bool) (body : Option (List Coin))
  deriving DecidableEq, Repr

/-- The method `CryptoAPI.fetchMarkets`, given how its `fetch` ends; `none` is a rejected
promise. A response whose `ok` is false makes it throw. -/
def CryptoAPI.fetchMarkets (outcome : FetchOutcome) : Option (List Coin) :=
  match outcome with
  | .rejected => none
  | .response ok body => if !ok then none else body

/-- The market endpoint as the page sees it: how the `fetch` of the request with a given
sequence number and currency ends. -/
abbrev MarketFeed := Nat → String → FetchOutcome

/-- The page while it runs: the application object, `localStorage`, and the calls of
`fetchMarkets` that have not settled yet, each with its sequence number and the currency it was
started with. -/
structure Page where
  app : App
  localStorage : Storage
  inFlight : List (Nat × String)
  issued : Nat
  deriving DecidableEq, Repr

/-- What can happen to the page: the callbacks bound in `bindEvents` and `bindHeaderControls`,
the timer of `startAutoRefresh` (the same call as the refresh button), and the settling of a
request in flight. -/
inductive Event where
  | search (value : String)
  | sort (key : String)
  | tab (name : String)
  | watch (id : String)
  | currency (code : String)
  | refresh
  | settle (seq : Nat)
  deriving DecidableEq, Repr

/-- A call of `App.fetchAndRender` on the page: the request joins those in flight. -/
def Page.callFetchAndRender (page : Page) : Page :=
  { page with
    app := page.app.fetchAndRenderStart,
    inFlight := page.inFlight ++ [(page.issued, page.app.currency)],
    issued := page.issued + 1 }

/-- The click handler of a currency button in `App.bindHeaderControls`. -/
def Page.clickCurrency (page : Page) (code : String) : Page :=
  Page.callFetchAndRender
    { page with
      app := { page.app with currency := code },
      localStorage := page.localStorage.setItem STORAGE_KEYS_currency code }

/-- One event on the page. -/
def Page.step (env : Builtins) (feed : MarketFeed) (page : Page) : Event → Page
  | .search value => { page with app := page.app.handleSearch env value }
  | .sort key => { page with app := page.app.handleSort env key }
  | .tab name => { page with app := page.app.handleTab env name }
  | .watch id =>
    { page with
      app := (page.app.toggleWatch env page.localStorage id).1,
      localStorage := (page.app.toggleWatch env page.localStorage id).2 }
  | .currency code => page.clickCurrency code
  | .refresh => page.callFetchAndRender
  | .settle seq =>
    match page.inFlight.find? (fun r => r.1 = seq) with
    | none => page
    | some (_, currency) =>
      { page with
        app := page.app.fetchAndRenderSettle env (CryptoAPI.fetchMarkets (feed seq currency)),
        inFlight := page.inFlight.filter (fun r => decide (r.1 ≠ seq)) }

/-- A sequence of events, in order. -/
def Page.run (env : Builtins) (feed : MarketFeed) (page : Page) (events : List Event) : Page :=
  events.foldl (Page.step env feed) page

/-- The statement `new App().init()`: the application is constructed and `init` makes the first
call of `fetchAndRender`. -/
def Page.start (parse : String → Parsed) (store : Storage) (tableBody : Option TableContent) :
    Option Page :=
  match App.new parse store tableBody with
  | none => none
  | some app =>
    some (Page.callFetchAndRender
      { app := app, localStorage := store, inFlight := [], issued := 0 })

/-- The events after which the table is derived again from the held coins without a fetch. -/
def Event.isDerivation : Event → Bool
  | .search _ => true
  | .sort _ => true
  | .tab _ => true
  | .watch _ => true
  | _ => false

/-- The events that neither switch the currency nor let a request succeed: the derivation
events, a call of `fetchAndRender`, and the settling of a request whose `fetchMarkets` promise
is rejected whatever currency it was started with. -/
def Event.leavesSnapshot (feed : MarketFeed) : Event → Prop
  | .settle seq => ∀ currency, CryptoAPI.fetchMarkets (feed seq currency) = none
  | .currency _ => False
  | _ => True

/-- The search text a derivation event passes to `applyFilters`. -/
def Event.query : Event → String
  | .search value => value
  | _ => ""

/-! ## Price movement as the specification words it -/

/-- The four classifications of the specification. -/
inductive Direction where
  | unknown
  | unchanged
  | up
  | down
  deriving DecidableEq, Repr

/-- The specification's `classify`: `unknown` without a recorded price, otherwise the comparison
of the new price with the recorded one. -/
def classify (previous : Option Int) (newPrice : Int) : Direction :=
  match previous with
  | none => .unknown
  | some p =>
    if newPrice > p then .up else if newPrice < p then .down else .unchanged

/-- The specification's tracker run over the successive prices of one asset: each price is
classified against the one before it and then recorded. -/
def classifyAll : Option Int → List Int → List Direction
  | _, [] => []
  | previous, price :: rest => classify previous price :: classifyAll (some price) rest

/-- How a classification shows on a row: only `up` and `down` flash. -/
def Direction.flash : Direction → Option Flash
  | .up => some .positive
  | .down => some .negative
  | _ => none

/-- The coin with the given id and price, as one refresh delivers it. -/
def quote (id : String) (price : Int) : Coin :=
  { id := id, name := id, symbol := id, current_price := some price, market_cap := none,
    price_change_percentage_24h := some 0 }

/-- The flash classes `renderTable` gives the row of one asset over successive renders in which
its price takes the given values. -/
def flashes (watchlist : WatchlistManager) (id : String) :
    PriceMemory → List Int → List (Option Flash)
  | _, [] => []
  | memory, price :: rest =>
    let (row, memory1) := renderRow watchlist memory (quote id price)
    row.flash :: flashes watchlist id memory1 rest

/-- The sort value the specification assigns to a logical sort key: `price` reads the price,
`change` the 24 hour change, `market` and every other key the market capitalisation; a missing
value counts as 0. -/
def mappedField (sortKey : String) (c : Coin) : Int :=
  if sortKey = "price" then c.current_price.getD 0
  else if sortKey = "change" then c.price_change_percentage_24h.getD 0
  else c.market_cap.getD 0

/-- The specification's search condition: the lower-cased name or the lower-cased symbol of
the coin contains the lower-cased search text as a contiguous substring. -/
def MatchesSearch (toLowerCase : String → String) (q : String) (c : Coin) : Prop :=
  (toLowerCase q).data <:+: (toLowerCase c.name).data ∨
    (toLowerCase q).data <:+: (toLowerCase c.symbol).data

instance (toLowerCase : String → String) (q : String) (c : Coin) :
    Decidable (MatchesSearch toLowerCase q c) :=
  inferInstanceAs (Decidable (_ ∨ _))

/-! ## Sample data -/

/-- A coin with every numeric field present. -/
def sampleCoin (id name symbol : String) (price cap change : Int) : Coin :=
  { id := id, name := name, symbol := symbol, current_price := some price,
    market_cap := some cap, price_change_percentage_24h := some change }

/-- Bitcoin as quoted in dollars. -/
def bitcoinUsd : Coin := sampleCoin "bitcoin" "Bitcoin" "btc" 100 2000 1

/-- Ethereum as quoted in dollars. -/
def ethereumUsd : Coin := sampleCoin "ethereum" "Ethereum" "eth" 10 1000 2

/-- Bitcoin as quoted in euros. -/
def bitcoinEur : Coin := sampleCoin "bitcoin" "Bitcoin" "btc" 92 1840 1

/-- A stand-in for `toLowerCase` that maps the capitals A to Z to small letters. -/
def asciiLower (s : String) : String :=
  String.mk (s.data.map (fun c =>
    if 65 ≤ c.toNat ∧ c.toNat ≤ 90 then Char.ofNat (c.toNat + 32) else c))

/-- A stand-in for the currency test of `Intl.NumberFormat`: three letters A to Z, small or
capital. -/
def isThreeLetterCode (s : String) : Bool :=
  s.data.length = 3 ∧
    s.data.all (fun c =>
      (65 ≤ c.toNat ∧ c.toNat ≤ 90) ∨ (97 ≤ c.toNat ∧ c.toNat ≤ 122))

/-- The stand-ins for the built-ins used in the examples. -/
def sampleBuiltins : Builtins :=
  { toLowerCase := asciiLower, acceptsCurrency := isThreeLetterCode }

/-- A stand-in for `JSON.parse` that accepts one text, the empty array, and rejects the rest. -/
def parseEmptyArrayOnly (s : String) : Parsed :=
  if s = "[]" then .elements [] else .syntaxError

/-- A feed that answers a dollar request with dollar quotes, a euro request with euro quotes and
fails for any other currency. -/
def sampleFeed : MarketFeed := fun _ currency =>
  if currency = "usd" then .response true (some [ethereumUsd, bitcoinUsd])
  else if currency = "eur" then .response true (some [bitcoinEur])
  else .response false none

/-- A page that holds the dollar quotes, with nothing in flight. -/
def dollarPage : Page :=
  { app := { ui := UIManager.new (some .untouched), watchlist := { items := [] },
             currency := "usd", coins := [ethereumUsd, bitcoinUsd] },
    localStorage := [], inFlight := [], issued := 1 }

/-- A feed whose quote moves with every request: request number `seq` is answered with
Bitcoin at `100 + seq`. -/
def movingFeed : MarketFeed := fun seq _ =>
  .response true (some [sampleCoin "bitcoin" "Bitcoin" "btc" (100 + seq) 2000 1])

/-- A feed that quotes Bitcoin at 0 for the first request and at 5 afterwards. -/
def risingFromZeroFeed : MarketFeed := fun seq _ =>
  .response true (some [quote "bitcoin" (if seq = 0 then 0 else 5)])

/-- A page that has just been opened with empty storage. -/
def freshPage : Page :=
  { app := { ui := (UIManager.new (some .untouched)).showLoading true,
             watchlist := { items := [] }, currency := "usd", coins := [] },
    localStorage := [], inFlight := [(0, "usd")], issued := 1 }

/-! ## Stable sorting: general facts -/

section StableSort

variable {α : Type} (r : α → α → Prop) [DecidableRel r]

theorem filter_orderedInsert [IsTrans α r] (p : α → Bool) (a : α) :
    ∀ l : List α, l.Sorted r →
      (l.orderedInsert r a).filter p
        = if p a then (l.filter p).orderedInsert r a else l.filter p
  | [], _ => by
    by_cases hp : p a <;> simp [hp]
  | b :: l, hl => by
    have ih := filter_orderedInsert p a l hl.of_cons
    by_cases hab : r a b
    · have hall : ∀ c ∈ (b :: l).filter p, r a c := by
        intro c hc
        have hc' : c ∈ b :: l := (List.mem_filter.mp hc).1
        rcases List.mem_cons.mp hc' with rfl | hcl
        · exact hab
        · exact IsTrans.trans a b c hab (List.rel_of_sorted_cons hl c hcl)
      have hins : ((b :: l).filter p).orderedInsert r a = a :: (b :: l).filter p := by
        cases hf : (b :: l).filter p with
        | nil => rfl
        | cons c t =>
          have : r a c := hall c (by rw [hf]; exact List.mem_cons_self _ _)
          simp [List.orderedInsert, this]
      rw [hins]
      simp only [List.orderedInsert, hab, if_true]
      by_cases hp : p a <;> simp [hp, List.filter_cons]
    · simp only [List.orderedInsert, hab, if_false]
      by_cases hb : p b
      · simp only [List.filter_cons, hb, if_true, ih]
        by_cases hp : p a <;> simp [hp, List.orderedInsert, hab]
      · simp only [List.filter_cons, hb, ih]
        simp

theorem filter_insertionSort [IsTrans α r] [IsTotal α r] (p : α → Bool) :
    ∀ l : List α, (l.insertionSort r).filter p = (l.filter p).insertionSort r
  | [] => rfl
  | a :: l => by
    have ih := filter_insertionSort p l
    rw [List.insertionSort, filter_orderedInsert r p a _ (List.sorted_insertionSort r l), ih]
    by_cases hp : p a <;> simp [hp, List.filter_cons, List.insertionSort]

end StableSort

/-! ## `App.applySort`: permutation, order, stability -/

theorem precedes_compareCoins (k d : String) (a b : Coin) :
    Precedes (compareCoins k d) a b ↔
      if d = "asc" then sortValue (sortProperty k) a ≤ sortValue (sortProperty k) b
      else sortValue (sortProperty k) b ≤ sortValue (sortProperty k) a := by
  unfold Precedes compareCoins
  by_cases hd : d = "asc" <;> simp [hd]

theorem applySort_perm (k d : String) (coins : List Coin) :
    (applySort k d coins).Perm coins :=
  List.perm_insertionSort _ coins

theorem applySort_sorted (k d : String) (coins : List Coin) :
    (applySort k d coins).Sorted (Precedes (compareCoins k d)) :=
  List.sorted_insertionSort _ coins

theorem filter_applySort (k d : String) (p : Coin → Bool) (coins : List Coin) :
    (applySort k d coins).filter p = applySort k d (coins.filter p) :=
  filter_insertionSort _ p coins

theorem applySort_stable (k d : String) (coins : List Coin) (v : Int) :
    (applySort k d coins).filter (fun c => decide (sortValue (sortProperty k) c = v))
      = coins.filter (fun c => decide (sortValue (sortProperty k) c = v)) := by
  rw [filter_applySort]
  apply List.Sorted.insertionSort_eq
  have htriv : (coins.filter (fun c => decide (sortValue (sortProperty k) c = v))).Pairwise
      (fun _ _ => True) := List.pairwise_of_forall (fun _ _ => trivial)
  refine List.Pairwise.imp_of_mem ?_ htriv
  intro a b ha hb _
  have ha' := (List.mem_filter.mp ha).2
  have hb' := (List.mem_filter.mp hb).2
  simp only [decide_eq_true_eq] at ha' hb'
  rw [precedes_compareCoins, ha', hb']
  by_cases hd : d = "asc" <;> simp [hd]

theorem sortValue_eq_mappedField (k : String) (hk : k ∉ objectPrototypeMembers) (c : Coin) :
    sortValue (sortProperty k) c = mappedField k c := by
  unfold sortProperty keyMap mappedField sortValue Coin.prop
  by_cases h1 : k = "price"
  · simp [h1]
  · by_cases h2 : k = "market"
    · subst h2; simp
    · by_cases h3 : k = "change"
      · subst h3; simp
      · simp [h1, h2, h3, hk]

/-- For a sort key that names no member inherited from `Object.prototype`, `applySort` returns
the stable sort of its input by the mapped field: a permutation of the input, non-decreasing
when the direction is asc, non-increasing otherwise, in which the coins of equal mapped value
keep the order they have in the input. -/
theorem applySort_of_own_key (k d : String) (coins : List Coin)
    (hk : k ∉ objectPrototypeMembers) :
    (applySort k d coins).Perm coins
    ∧ (d = "asc" →
        (applySort k d coins).Pairwise (fun a b => mappedField k a ≤ mappedField k b))
    ∧ (d ≠ "asc" →
        (applySort k d coins).Pairwise (fun a b => mappedField k b ≤ mappedField k a))
    ∧ ∀ v : Int, (applySort k d coins).filter (fun c => decide (mappedField k c = v))
        = coins.filter (fun c => decide (mappedField k c = v)) := by
  have hsorted := applySort_sorted k d coins
  refine ⟨applySort_perm k d coins, fun hd => ?_, fun hd => ?_, fun v => ?_⟩
  · refine List.Pairwise.imp ?_ hsorted
    intro a b hab
    rw [precedes_compareCoins] at hab
    simpa [hd, sortValue_eq_mappedField k hk] using hab
  · refine List.Pairwise.imp ?_ hsorted
    intro a b hab
    rw [precedes_compareCoins] at hab
    simpa [hd, sortValue_eq_mappedField k hk] using hab
  · have := applySort_stable k d coins v
    simpa [sortValue_eq_mappedField k hk] using this

theorem applySort_of_own_key_witness :
    (applySort "market_cap" "desc" [ethereumUsd, bitcoinUsd]).Perm [ethereumUsd, bitcoinUsd]
    ∧ (applySort "market_cap" "desc" [ethereumUsd, bitcoinUsd]).Pairwise
        (fun a b => mappedField "market_cap" b ≤ mappedField "market_cap" a) :=
  ⟨(applySort_of_own_key "market_cap" "desc" [ethereumUsd, bitcoinUsd] (by decide)).1,
   (applySort_of_own_key "market_cap" "desc" [ethereumUsd, bitcoinUsd] (by decide)).2.2.1
     (by decide)⟩

/-- C1 (failing input): with the sort key "constructor" the read `keyMap[sortKey]` finds the
member inherited from `Object.prototype`, the fallback to the market capitalisation is not taken,
every coin compares equal and `applySort` returns its input as it is, here in increasing order
of market capitalisation although the direction is desc. -/
theorem applySort_inherited_key :
    applySort "constructor" "desc" [ethereumUsd, bitcoinUsd] = [ethereumUsd, bitcoinUsd]
    ∧ mappedField "constructor" ethereumUsd = 1000
    ∧ mappedField "constructor" bitcoinUsd = 2000
    ∧ ¬ (applySort "constructor" "desc" [ethereumUsd, bitcoinUsd]).Pairwise
        (fun a b => mappedField "constructor" b ≤ mappedField "constructor" a) := by
  decide

/-! ## Filtering: the watchlist tab and the search text -/

theorem includes_iff (s search : String) :
    includes s search = true ↔ search.data <:+: s.data := by
  unfold includes
  rw [List.any_eq_true]
  constructor
  · rintro ⟨t, ht, hp⟩
    exact List.infix_iff_prefix_suffix.mpr ⟨t, List.isPrefixOf_iff_prefix.mp hp,
      (List.mem_tails _ _).mp ht⟩
  · intro h
    obtain ⟨t, hp, hs⟩ := List.infix_iff_prefix_suffix.mp h
    exact ⟨t, (List.mem_tails _ _).mpr hs, List.isPrefixOf_iff_prefix.mpr hp⟩

theorem searchTest_eq (toLowerCase : String → String) (q : String) (c : Coin) :
    (includes (toLowerCase c.name) (toLowerCase q)
        || includes (toLowerCase c.symbol) (toLowerCase q))
      = decide (MatchesSearch toLowerCase q c) := by
  rw [Bool.eq_iff_iff]
  simp only [Bool.or_eq_true, includes_iff, decide_eq_true_eq, MatchesSearch]

theorem applyFilters_of_tab_ne (toLowerCase : String → String) (coins : List Coin)
    (tab : String) (W : WatchlistManager) (k d q : String) (htab : tab ≠ "watchlist") :
    applyFilters toLowerCase coins "watchlist" W k d q
      = (applyFilters toLowerCase coins tab W k d q).filter (fun c => W.has c.id) := by
  unfold applyFilters
  simp only [htab, if_true, if_false]
  rw [filter_applySort]
  by_cases hq : q = ""
  · simp [hq]
  · simp only [hq, ne_eq, not_false_eq_true, if_true, List.filter_filter]
    congr 1
    apply List.filter_congr
    intro c _
    exact Bool.and_comm _ _

/-- C2: under tab "watchlist" `applyFilters` returns the result for tab "all" filtered by
membership of the id in the watchlist, so the watched coins keep the relative order the sort
gives them; with the default empty query these rows are, counted with multiplicity, exactly the
coins of the snapshot whose id is in the watchlist. -/
theorem applyFilters_watchlist_tab (toLowerCase : String → String) (S : List Coin)
    (W : WatchlistManager) (k d q : String) :
    applyFilters toLowerCase S "watchlist" W k d q
        = (applyFilters toLowerCase S "all" W k d q).filter (fun c => decide (c.id ∈ W.items))
      ∧ (applyFilters toLowerCase S "watchlist" W k d "").Perm
          (S.filter (fun c => decide (c.id ∈ W.items)))
      ∧ ∀ c, c ∈ applyFilters toLowerCase S "watchlist" W k d "" ↔
          c ∈ S ∧ c.id ∈ W.items := by
  have hperm : (applyFilters toLowerCase S "watchlist" W k d "").Perm
      (S.filter (fun c => decide (c.id ∈ W.items))) := by
    unfold applyFilters
    simpa [WatchlistManager.has] using applySort_perm k d _
  refine ⟨applyFilters_of_tab_ne toLowerCase S "all" W k d q (by decide), hperm, ?_⟩
  intro c
  rw [hperm.mem_iff, List.mem_filter, decide_eq_true_eq]

/-- C3: with a non-empty search text `applyFilters` returns exactly the rows of the empty-query
result (the tab-filtered snapshot, sorted) whose lower-cased name or lower-cased symbol contains
the lower-cased text, in the same order; with the empty text it returns a permutation of the
tab-filtered snapshot, so no coin is dropped. -/
theorem applyFilters_search (toLowerCase : String → String) (S : List Coin) (tab : String)
    (W : WatchlistManager) (k d q : String) :
    (q ≠ "" →
        applyFilters toLowerCase S tab W k d q
            = (applyFilters toLowerCase S tab W k d "").filter
                (fun c => decide (MatchesSearch toLowerCase q c))
          ∧ ∀ c, c ∈ applyFilters toLowerCase S tab W k d q ↔
              c ∈ (if tab = "watchlist" then S.filter (fun c => decide (c.id ∈ W.items)) else S)
                ∧ MatchesSearch toLowerCase q c)
      ∧ (applyFilters toLowerCase S tab W k d "").Perm
          (if tab = "watchlist" then S.filter (fun c => decide (c.id ∈ W.items)) else S) := by
  have hperm : (applyFilters toLowerCase S tab W k d "").Perm
      (if tab = "watchlist" then S.filter (fun c => decide (c.id ∈ W.items)) else S) := by
    unfold applyFilters
    simpa [WatchlistManager.has] using applySort_perm k d _
  refine ⟨fun hq => ?_, hperm⟩
  have heq : applyFilters toLowerCase S tab W k d q
      = (applyFilters toLowerCase S tab W k d "").filter
          (fun c => decide (MatchesSearch toLowerCase q c)) := by
    unfold applyFilters
    simp only [hq, ne_eq, not_false_eq_true, if_true, not_true_eq_false, if_false]
    rw [filter_applySort]
    congr 1
    apply List.filter_congr
    intro c _
    exact searchTest_eq toLowerCase q c
  refine ⟨heq, fun c => ?_⟩
  rw [heq, List.mem_filter, hperm.mem_iff, decide_eq_true_eq]

theorem applyFilters_search_witness :
    applyFilters asciiLower [ethereumUsd, bitcoinUsd] "all" { items := [] } "price" "asc" "BIT"
      = (applyFilters asciiLower [ethereumUsd, bitcoinUsd] "all" { items := [] } "price" "asc"
          "").filter (fun c => decide (MatchesSearch asciiLower "BIT" c)) :=
  ((applyFilters_search asciiLower [ethereumUsd, bitcoinUsd] "all" { items := [] } "price" "asc"
    "BIT").1 (by decide)).1

/-! ## Price flashes -/

theorem PriceMemory.get_set_self (m : PriceMemory) (id : String) (v : Option Int) :
    (m.set id v).get id = some v := by
  induction m with
  | nil => simp [PriceMemory.set, PriceMemory.get]
  | cons kv rest ih =>
    obtain ⟨k, w⟩ := kv
    by_cases hk : k = id
    · simp [PriceMemory.set, PriceMemory.get, hk]
    · simp [PriceMemory.set, PriceMemory.get, hk, ih]

theorem rowFlash_of_pos (p q : Int) (hp : 0 < p) :
    rowFlash (some (some p)) (some q) = (classify (some p) q).flash := by
  have hp0 : p ≠ 0 := by omega
  unfold rowFlash classify
  simp only [hp0, if_false, ne_eq, Option.some.injEq, Option.getD_some]
  by_cases h1 : q > p
  · have : ¬ p = q := by omega
    simp [h1, this, Direction.flash]
  · by_cases h2 : q < p
    · have : ¬ p = q := by omega
      simp [h1, h2, this, Direction.flash]
    · have : p = q := by omega
      simp [h1, h2, this, Direction.flash]

/-- For strictly positive prices the flash classes of one asset are those of the specification's
tracker, whether the asset has not been drawn before or was last drawn at a positive price. -/
theorem flashes_of_pos (W : WatchlistManager) (id : String) :
    ∀ (prices : List Int) (memory : PriceMemory) (previous : Option Int),
      (∀ p ∈ prices, 0 < p) →
      ((memory.get id = none ∧ previous = none) ∨
        ∃ p, 0 < p ∧ memory.get id = some (some p) ∧ previous = some p) →
      flashes W id memory prices = (classifyAll previous prices).map Direction.flash
  | [], _, _, _, _ => rfl
  | q :: rest, memory, previous, hpos, hmem => by
    have hq : 0 < q := hpos q (List.mem_cons_self _ _)
    have hrest : ∀ p ∈ rest, 0 < p := fun p hp => hpos p (List.mem_cons_of_mem _ hp)
    have ih := flashes_of_pos W id rest (memory.set id (some q)) (some q) hrest
      (Or.inr ⟨q, hq, PriceMemory.get_set_self memory id (some q), rfl⟩)
    have hhead : rowFlash (memory.get id) (some q) = (classify previous q).flash := by
      rcases hmem with ⟨hm, hprev⟩ | ⟨p, hp, hm, hprev⟩
      · rw [hm, hprev]; rfl
      · rw [hm, hprev]; exact rowFlash_of_pos p q hp
    simp only [flashes, renderRow, quote, classifyAll, List.map_cons]
    rw [hhead]
    congr 1

/-- The recorded price of a coin after its row is drawn is the price just drawn, whatever the
flash decision was. -/
theorem renderRow_records (W : WatchlistManager) (memory : PriceMemory) (coin : Coin) :
    (renderRow W memory coin).2.get coin.id = some coin.current_price :=
  PriceMemory.get_set_self memory coin.id coin.current_price

/-- Prices 10, 10, 12, 8 for an asset not drawn before give the flash classes of unknown,
unchanged, up, down. -/
theorem flashes_example :
    flashes { items := [] } "bitcoin" [] [10, 10, 12, 8]
      = [Direction.unknown, .unchanged, .up, .down].map Direction.flash
    ∧ classifyAll none [10, 10, 12, 8] = [.unknown, .unchanged, .up, .down] := by
  decide

/-- C4 (failing input): after a price of 0 has been drawn for an asset, the next price 5 is drawn
without a flash, although it is greater than the recorded price and the specification classifies
it as up; the same on a page whose first refresh quotes 0 and whose second quotes 5. -/
theorem flashes_after_zero_price :
    flashes { items := [] } "bitcoin" [] [0, 5] = [none, none]
    ∧ (classifyAll none [0, 5]) = [.unknown, .up]
    ∧ (classifyAll none [0, 5]).map Direction.flash = [none, some Flash.positive]
    ∧ (Page.run sampleBuiltins risingFromZeroFeed freshPage
          [.settle 0, .refresh, .settle 1]).app.ui.tableBody
        = some (.rows [{ coin := quote "bitcoin" 5, flash := none, watching := false }]
            "usd") := by
  decide

/-! ## The watchlist -/

theorem Storage.getItem_setItem_self (store : Storage) (key value : String) :
    (store.setItem key value).getItem key = some value := by
  induction store with
  | nil => simp [Storage.setItem, Storage.getItem]
  | cons kv rest ih =>
    obtain ⟨k, v⟩ := kv
    by_cases hk : k = key
    · simp [Storage.setItem, Storage.getItem, hk]
    · simp [Storage.setItem, Storage.getItem, hk, ih]

theorem toggle_items (w : WatchlistManager) (store : Storage) (id : String) :
    (w.toggle store id).1.items
      = if id ∈ w.items then setDelete w.items id else w.items ++ [id] := by
  unfold WatchlistManager.toggle WatchlistManager.has setAdd
  by_cases h : id ∈ w.items <;> simp [h]

theorem toggle_stored (w : WatchlistManager) (store : Storage) (id : String) :
    (w.toggle store id).2.getItem STORAGE_KEYS_watchlist
      = some (stringify (w.toggle store id).1.items) := by
  unfold WatchlistManager.toggle WatchlistManager.save
  exact Storage.getItem_setItem_self _ _ _

theorem not_mem_setDelete (items : List String) (id : String) : id ∉ setDelete items id := by
  simp [setDelete]

theorem setDelete_of_not_mem (items : List String) (id : String) (h : id ∉ items) :
    setDelete items id = items := by
  unfold setDelete
  rw [List.filter_eq_self]
  intro y hy
  simp only [ne_eq, decide_not, Bool.not_eq_eq_eq_not, Bool.not_true, decide_eq_false_iff_not]
  rintro rfl
  exact h hy

/-- C5 (counterexample): toggling an id that is a member and was not the last one inserted, twice,
leaves a stored string that differs from the serialization of the original watchlist. -/
theorem toggle_twice_changes_stored_string :
    ((({ items := ["bitcoin", "ethereum"] } : WatchlistManager).toggle
          [(STORAGE_KEYS_watchlist, stringify ["bitcoin", "ethereum"])] "bitcoin").1.toggle
        (({ items := ["bitcoin", "ethereum"] } : WatchlistManager).toggle
          [(STORAGE_KEYS_watchlist, stringify ["bitcoin", "ethereum"])] "bitcoin").2
        "bitcoin").2.getItem STORAGE_KEYS_watchlist
      = some (stringify ["ethereum", "bitcoin"])
    ∧ stringify ["ethereum", "bitcoin"] ≠ stringify ["bitcoin", "ethereum"] := by
  decide

/-- C5 (amended): toggling an id twice restores the membership of every id, and the stored string
is the serialization of the resulting set in insertion order; that order is the original one
when the id was not a member, and the original one with the id moved to the end when it was. -/
theorem toggle_twice (w : WatchlistManager) (store : Storage) (id : String) :
    (∀ x, ((w.toggle store id).1.toggle (w.toggle store id).2 id).1.has x = w.has x)
    ∧ ((w.toggle store id).1.toggle (w.toggle store id).2 id).2.getItem STORAGE_KEYS_watchlist
        = some (stringify ((w.toggle store id).1.toggle (w.toggle store id).2 id).1.items)
    ∧ ((w.toggle store id).1.toggle (w.toggle store id).2 id).1.items
        = if id ∈ w.items then setDelete w.items id ++ [id] else w.items := by
  have hitems : ((w.toggle store id).1.toggle (w.toggle store id).2 id).1.items
      = if id ∈ w.items then setDelete w.items id ++ [id] else w.items := by
    rw [toggle_items, toggle_items]
    by_cases h : id ∈ w.items
    · simp [h, not_mem_setDelete]
    · simp only [h, if_false, List.mem_append, List.mem_singleton, or_true, if_true]
      unfold setDelete
      rw [List.filter_append]
      have := setDelete_of_not_mem w.items id h
      unfold setDelete at this
      rw [this]
      simp
  refine ⟨fun x => ?_, toggle_stored _ _ _, hitems⟩
  unfold WatchlistManager.has
  rw [hitems]
  by_cases h : id ∈ w.items
  · simp only [h, if_true, List.mem_append, List.mem_singleton, setDelete, List.mem_filter,
      decide_eq_true_eq, ne_eq, decide_not, Bool.not_eq_eq_eq_not, Bool.not_true,
      decide_eq_false_iff_not]
    by_cases hx : x = id
    · subst hx; simp [h]
    · simp [hx]
  · simp [h]

/-- C6: when the watchlist key is absent from storage, or holds a text on which `JSON.parse`
throws, the constructor of `WatchlistManager` completes and the watchlist has no member. -/
theorem watchlist_new_of_absent_or_unparsable (parse : String → Parsed) (store : Storage)
    (h : store.getItem STORAGE_KEYS_watchlist = none ∨
      ∃ stored, store.getItem STORAGE_KEYS_watchlist = some stored
        ∧ parse stored = Parsed.syntaxError) :
    ∃ w, WatchlistManager.new parse store = some w ∧ w.items = []
      ∧ ∀ id, w.has id = false := by
  refine ⟨{ items := [] }, ?_, rfl, fun id => by simp [WatchlistManager.has]⟩
  unfold WatchlistManager.new WatchlistManager.load
  rcases h with h | ⟨stored, h, hp⟩
  · simp [h]
  · by_cases he : stored = ""
    · simp [h, he]
    · simp [h, he, hp]

theorem watchlist_new_of_absent_or_unparsable_witness :
    ∃ w, WatchlistManager.new parseEmptyArrayOnly [(STORAGE_KEYS_watchlist, "[bitcoin")] = some w
      ∧ w.items = [] ∧ ∀ id, w.has id = false :=
  watchlist_new_of_absent_or_unparsable parseEmptyArrayOnly
    [(STORAGE_KEYS_watchlist, "[bitcoin")]
    (Or.inr ⟨"[bitcoin", by decide, by decide⟩)

/-! ## The refresh cycle and the handlers -/

/-- Opening the page with empty storage gives the sample page `freshPage`: default view state,
dollar currency, no coins, and the first request in flight. -/
theorem start_empty_storage :
    Page.start parseEmptyArrayOnly [] (some .untouched) = some freshPage := by
  decide

theorem mem_of_mem_applyFilters (toLowerCase : String → String) (coins : List Coin)
    (tab : String) (W : WatchlistManager) (k d q : String) (c : Coin)
    (h : c ∈ applyFilters toLowerCase coins tab W k d q) : c ∈ coins := by
  unfold applyFilters at h
  have h1 := (applySort_perm k d _).mem_iff.mp h
  by_cases ht : tab = "watchlist" <;> by_cases hq : q = "" <;>
    simp only [ht, hq, ne_eq, not_true_eq_false, not_false_eq_true, if_true, if_false,
      List.mem_filter] at h1
  · exact h1.1
  · exact h1.1.1
  · exact h1
  · exact h1.1

/-- The rows the loop of `renderTable` appends show the coins it is given up to the first one
whose row text throws, in order; when none throws they show all of them and the loop runs to its
end. -/
theorem renderRows_spec (acceptsCurrency : String → Bool) (W : WatchlistManager)
    (currency : String) :
    ∀ (coins : List Coin) (memory : PriceMemory),
      (renderRows acceptsCurrency W currency memory coins).1.map Row.coin
          = coins.takeWhile (fun c => !rowTextThrows acceptsCurrency currency c)
      ∧ ((∀ c ∈ coins, rowTextThrows acceptsCurrency currency c = false) →
          (renderRows acceptsCurrency W currency memory coins).1.map Row.coin = coins
          ∧ (renderRows acceptsCurrency W currency memory coins).2.2 = true)
  | [], _ => ⟨rfl, fun _ => ⟨rfl, rfl⟩⟩
  | c :: rest, memory => by
    obtain ⟨ih1, ih2⟩ := renderRows_spec acceptsCurrency W currency rest
      (renderRow W memory c).2
    cases ht : rowTextThrows acceptsCurrency currency c with
    | true =>
      refine ⟨?_, fun hall => ?_⟩
      · simp [renderRows, ht, List.takeWhile_cons]
      · have := hall c (List.mem_cons_self _ _)
        rw [ht] at this
        exact absurd this (by decide)
    | false =>
      have hmap : (renderRows acceptsCurrency W currency memory (c :: rest)).1.map Row.coin
          = c :: (renderRows acceptsCurrency W currency (renderRow W memory c).2
              rest).1.map Row.coin := by
        simp only [renderRows, ht, Bool.false_eq_true, if_false, List.map_cons]
        rfl
      have hok : (renderRows acceptsCurrency W currency memory (c :: rest)).2.2
          = (renderRows acceptsCurrency W currency (renderRow W memory c).2 rest).2.2 := by
        simp only [renderRows, ht, Bool.false_eq_true, if_false]
      refine ⟨?_, fun hall => ?_⟩
      · rw [hmap, ih1]
        simp [List.takeWhile_cons, ht]
      · obtain ⟨k1, k2⟩ := ih2 (fun x hx => hall x (List.mem_cons_of_mem _ hx))
        rw [hmap, hok, k1]
        exact ⟨rfl, k2⟩

theorem renderTable_spec (acceptsCurrency : String → Bool) (ui : UIManager)
    (args : RenderArgs) (h : ui.tableBody ≠ none) :
    ∃ rs, (ui.renderTable acceptsCurrency args).1.tableBody = some (.rows rs args.currency)
      ∧ rs.map Row.coin
          = args.coins.takeWhile (fun c => !rowTextThrows acceptsCurrency args.currency c)
      ∧ ((∀ c ∈ args.coins, rowTextThrows acceptsCurrency args.currency c = false) →
          rs.map Row.coin = args.coins ∧ (ui.renderTable acceptsCurrency args).2 = true) := by
  obtain ⟨h1, h2⟩ := renderRows_spec acceptsCurrency args.watchlist args.currency args.coins
    ui.previousPrices
  unfold UIManager.renderTable
  cases hb : ui.tableBody with
  | none => exact absurd hb h
  | some t => exact ⟨_, rfl, h1, h2⟩

theorem renderTable_view (acceptsCurrency : String → Bool) (ui : UIManager)
    (args : RenderArgs) :
    (ui.renderTable acceptsCurrency args).1.currentTab = ui.currentTab
    ∧ (ui.renderTable acceptsCurrency args).1.sortKey = ui.sortKey
    ∧ (ui.renderTable acceptsCurrency args).1.sortDirection = ui.sortDirection := by
  unfold UIManager.renderTable
  cases ui.tableBody <;> exact ⟨rfl, rfl, rfl⟩

theorem showFailure_tableBody (ui : UIManager) (h : ui.tableBody ≠ none) :
    ui.showFailure.tableBody ≠ none := by
  unfold UIManager.showFailure
  cases hb : ui.tableBody with
  | none => exact absurd hb h
  | some t => simp

theorem fetchAndRenderSettle_none_coins (env : Builtins) (app : App) :
    (App.fetchAndRenderSettle env app none).coins = app.coins := rfl

theorem fetchAndRenderSettle_none_currency (env : Builtins) (app : App) :
    (App.fetchAndRenderSettle env app none).currency = app.currency := rfl

theorem fetchAndRenderSettle_none_tableBody (env : Builtins) (app : App)
    (h : app.ui.tableBody ≠ none) :
    (App.fetchAndRenderSettle env app none).ui.tableBody ≠ none :=
  showFailure_tableBody app.ui h

/-- A request that settles with an array leaves that array in `this.coins`, whether the drawing
that follows returns or throws. -/
theorem fetchAndRenderSettle_some_coins (env : Builtins) (app : App) (data : List Coin) :
    (App.fetchAndRenderSettle env app (some data)).coins = data := by
  unfold App.fetchAndRenderSettle
  by_cases h : (App.render env { app with coins := data }).2 = true
  · simp only [h, if_true]; rfl
  · simp only [h]; rfl

theorem fetchAndRenderSettle_currency (env : Builtins) (app : App)
    (response : Option (List Coin)) :
    (App.fetchAndRenderSettle env app response).currency = app.currency := by
  cases response with
  | none => rfl
  | some data =>
    unfold App.fetchAndRenderSettle
    by_cases h : (App.render env { app with coins := data }).2 = true
    · simp only [h, if_true]; rfl
    · simp only [h]; rfl

theorem Page.step_settle (env : Builtins) (feed : MarketFeed) (page : Page) (seq : Nat) :
    Page.step env feed page (.settle seq)
      = match page.inFlight.find? (fun r => decide (r.1 = seq)) with
        | none => page
        | some (_, currency) =>
          { page with
            app := page.app.fetchAndRenderSettle env
              (CryptoAPI.fetchMarkets (feed seq currency)),
            inFlight := page.inFlight.filter (fun r => decide (r.1 ≠ seq)) } := rfl

/-- C7: when the market request of a refresh fails, the continuation of `fetchAndRender` leaves
`this.coins` as it was, both for a call that settles with nothing in between and for a request
in flight that settles at any later moment on the page. -/
theorem fetch_failure_keeps_coins (env : Builtins) (feed : MarketFeed)
    (page : Page) (seq : Nat)
    (hfail : ∀ currency, feed seq currency = .rejected
      ∨ ∃ body, feed seq currency = .response false body) :
    (Page.step env feed page (.settle seq)).app.coins = page.app.coins
    ∧ ∀ (app : App) (outcome : FetchOutcome),
        (outcome = .rejected ∨ ∃ body, outcome = .response false body) →
        (App.fetchAndRender env app (CryptoAPI.fetchMarkets outcome)).coins
          = app.coins := by
  have hnone : ∀ outcome : FetchOutcome,
      (outcome = .rejected ∨ ∃ body, outcome = .response false body) →
      CryptoAPI.fetchMarkets outcome = none := by
    rintro outcome (rfl | ⟨body, rfl⟩) <;> rfl
  constructor
  · rw [Page.step_settle]
    cases hfind : page.inFlight.find? (fun r => decide (r.1 = seq)) with
    | none => rfl
    | some r =>
      obtain ⟨n, currency⟩ := r
      simp only [hnone _ (hfail currency)]
      exact fetchAndRenderSettle_none_coins env page.app
  · intro app outcome h
    rw [hnone outcome h]
    exact fetchAndRenderSettle_none_coins env app.fetchAndRenderStart

theorem fetch_failure_keeps_coins_witness :
    (Page.step sampleBuiltins (fun _ _ => .response false none) dollarPage.callFetchAndRender
        (.settle 1)).app.coins = [ethereumUsd, bitcoinUsd]
    ∧ (dollarPage.callFetchAndRender.inFlight = [(1, "usd")]) :=
  ⟨(fetch_failure_keeps_coins sampleBuiltins (fun _ _ => .response false none)
      dollarPage.callFetchAndRender 1 (fun _ => Or.inr ⟨none, rfl⟩)).1, by decide⟩

/-- C8 (failing input): with Ethereum and Bitcoin held, the search "bit" draws Bitcoin alone; a
click on the price sort that follows draws both coins, Ethereum included, which does not match
the search text. -/
theorem search_text_lost_on_sort :
    ((Page.run sampleBuiltins sampleFeed freshPage [.settle 0, .search "bit"]).app.ui.tableBody
        = some (.rows [{ coin := bitcoinUsd, flash := none, watching := false }] "usd"))
    ∧ ((Page.run sampleBuiltins sampleFeed freshPage
          [.settle 0, .search "bit", .sort "price"]).app.ui.tableBody
        = some (.rows [{ coin := ethereumUsd, flash := none, watching := false },
                       { coin := bitcoinUsd, flash := none, watching := false }] "usd"))
    ∧ ¬ MatchesSearch asciiLower "bit" ethereumUsd := by
  decide

/-- A coin without its 24 hour change stops the drawing: a refresh that delivers one replaces
the held coins and leaves the failure row, and a sort click on a page that holds one leaves the
rows drawn before it. -/
theorem drawing_stops_at_missing_change :
    (App.fetchAndRenderSettle sampleBuiltins dollarPage.app
        (some [bitcoinUsd, { ethereumUsd with price_change_percentage_24h := none }])).coins
      = [bitcoinUsd, { ethereumUsd with price_change_percentage_24h := none }]
    ∧ (App.fetchAndRenderSettle sampleBuiltins dollarPage.app
        (some [bitcoinUsd, { ethereumUsd with price_change_percentage_24h := none }])).ui.tableBody
      = some .failed
    ∧ (App.handleSort sampleBuiltins
        { dollarPage.app with
          coins := [bitcoinUsd, { ethereumUsd with price_change_percentage_24h := none }] }
        "price").ui.tableBody
      = some (.rows [] "usd")
    ∧ (App.handleSort sampleBuiltins { dollarPage.app with currency := "euro" }
        "price").ui.tableBody
      = some (.rows [] "euro") := by
  decide


/-! ## Derivation after a currency switch -/

theorem rowTextThrows_eq_false (acceptsCurrency : String → Bool) (currency : String)
    (c : Coin) (hacc : acceptsCurrency currency = true)
    (hc : c.price_change_percentage_24h ≠ none) :
    rowTextThrows acceptsCurrency currency c = false := by
  unfold rowTextThrows
  cases hp : c.price_change_percentage_24h with
  | none => exact absurd hp hc
  | some v => simp [hacc]

/-- What one call of `renderWithQuery` does to an application whose page has a table body: the
held coins and the currency stay, and the rows left in the table show, in the held currency,
what `applyFilters` derives from the held coins up to the first coin whose row text throws; that
is all of it when the currency code is accepted and no held coin lacks its 24 hour change. -/
theorem renderWithQuery_spec (env : Builtins) (app : App) (q : String)
    (h : app.ui.tableBody ≠ none) :
    (app.renderWithQuery env q).1.coins = app.coins
    ∧ (app.renderWithQuery env q).1.currency = app.currency
    ∧ ∃ rs, (app.renderWithQuery env q).1.ui.tableBody = some (.rows rs app.currency)
        ∧ rs.map Row.coin
            = (applyFilters env.toLowerCase app.coins
                (app.renderWithQuery env q).1.ui.currentTab
                (app.renderWithQuery env q).1.watchlist
                (app.renderWithQuery env q).1.ui.sortKey
                (app.renderWithQuery env q).1.ui.sortDirection q).takeWhile
              (fun c => !rowTextThrows env.acceptsCurrency app.currency c)
        ∧ (env.acceptsCurrency app.currency = true →
            (∀ c ∈ app.coins, c.price_change_percentage_24h ≠ none) →
            rs.map Row.coin = applyFilters env.toLowerCase app.coins
              (app.renderWithQuery env q).1.ui.currentTab
              (app.renderWithQuery env q).1.watchlist
              (app.renderWithQuery env q).1.ui.sortKey
              (app.renderWithQuery env q).1.ui.sortDirection q) := by
  obtain ⟨h1, h2, h3⟩ :=
    renderTable_view env.acceptsCurrency app.ui (app.renderArgs env.toLowerCase q)
  obtain ⟨rs, t1, t2, t3⟩ :=
    renderTable_spec env.acceptsCurrency app.ui (app.renderArgs env.toLowerCase q) h
  have hview : applyFilters env.toLowerCase app.coins
        (app.renderWithQuery env q).1.ui.currentTab
        (app.renderWithQuery env q).1.watchlist
        (app.renderWithQuery env q).1.ui.sortKey
        (app.renderWithQuery env q).1.ui.sortDirection q
      = (app.renderArgs env.toLowerCase q).coins := by
    show applyFilters env.toLowerCase app.coins
      (app.ui.renderTable env.acceptsCurrency (app.renderArgs env.toLowerCase q)).1.currentTab
      app.watchlist
      (app.ui.renderTable env.acceptsCurrency (app.renderArgs env.toLowerCase q)).1.sortKey
      (app.ui.renderTable env.acceptsCurrency
        (app.renderArgs env.toLowerCase q)).1.sortDirection q = _
    rw [h1, h2, h3]
    rfl
  refine ⟨rfl, rfl, rs, t1, ?_, fun hacc hall => ?_⟩
  · rw [hview]; exact t2
  · rw [hview]
    refine (t3 (fun c hc => ?_)).1
    exact rowTextThrows_eq_false env.acceptsCurrency app.currency c hacc
      (hall c (mem_of_mem_applyFilters _ _ _ _ _ _ _ c hc))

/-- A derivation event changes neither the held coins nor the currency, and the rows it leaves
in the table show, in the held currency, what `applyFilters` derives from the held coins up to
the first coin whose row text throws. -/
theorem step_derivation (env : Builtins) (feed : MarketFeed) (page : Page)
    (e : Event) (he : e.isDerivation = true) (h : page.app.ui.tableBody ≠ none) :
    (Page.step env feed page e).app.coins = page.app.coins
    ∧ (Page.step env feed page e).app.currency = page.app.currency
    ∧ ∃ rs, (Page.step env feed page e).app.ui.tableBody
          = some (.rows rs page.app.currency)
        ∧ rs.map Row.coin
            = (applyFilters env.toLowerCase page.app.coins
                (Page.step env feed page e).app.ui.currentTab
                (Page.step env feed page e).app.watchlist
                (Page.step env feed page e).app.ui.sortKey
                (Page.step env feed page e).app.ui.sortDirection e.query).takeWhile
              (fun c => !rowTextThrows env.acceptsCurrency page.app.currency c)
        ∧ (env.acceptsCurrency page.app.currency = true →
            (∀ c ∈ page.app.coins, c.price_change_percentage_24h ≠ none) →
            rs.map Row.coin = applyFilters env.toLowerCase page.app.coins
              (Page.step env feed page e).app.ui.currentTab
              (Page.step env feed page e).app.watchlist
              (Page.step env feed page e).app.ui.sortKey
              (Page.step env feed page e).app.ui.sortDirection e.query) := by
  cases e with
  | search value => exact renderWithQuery_spec env page.app value h
  | sort key =>
    exact renderWithQuery_spec env { page.app with ui := page.app.ui.setSort key } "" h
  | tab name =>
    exact renderWithQuery_spec env { page.app with ui := page.app.ui.setActiveTab name } "" h
  | watch id =>
    exact renderWithQuery_spec env
      { page.app with watchlist := (page.app.watchlist.toggle page.localStorage id).1 } "" h
  | currency code => exact absurd he (by simp [Event.isDerivation])
  | refresh => exact absurd he (by simp [Event.isDerivation])
  | settle seq => exact absurd he (by simp [Event.isDerivation])

/-- An event that neither switches the currency nor lets a request succeed keeps the held
coins, the currency and the presence of the table body. -/
theorem step_leaves_snapshot (env : Builtins) (feed : MarketFeed) (page : Page)
    (x : Event) (hx : x.leavesSnapshot feed) (h : page.app.ui.tableBody ≠ none) :
    (Page.step env feed page x).app.coins = page.app.coins
    ∧ (Page.step env feed page x).app.currency = page.app.currency
    ∧ (Page.step env feed page x).app.ui.tableBody ≠ none := by
  have hder : x.isDerivation = true →
      (Page.step env feed page x).app.coins = page.app.coins
      ∧ (Page.step env feed page x).app.currency = page.app.currency
      ∧ (Page.step env feed page x).app.ui.tableBody ≠ none := by
    intro hd
    obtain ⟨h1, h2, rs, h3, _⟩ := step_derivation env feed page x hd h
    exact ⟨h1, h2, by rw [h3]; simp⟩
  cases x with
  | search value => exact hder rfl
  | sort key => exact hder rfl
  | tab name => exact hder rfl
  | watch id => exact hder rfl
  | currency code => exact hx.elim
  | refresh => exact ⟨rfl, rfl, h⟩
  | settle seq =>
    have hfail : ∀ currency, CryptoAPI.fetchMarkets (feed seq currency) = none := hx
    rw [Page.step_settle]
    cases hfind : page.inFlight.find? (fun r => decide (r.1 = seq)) with
    | none => exact ⟨rfl, rfl, h⟩
    | some r =>
      obtain ⟨n, currency⟩ := r
      simp only [hfail]
      exact ⟨fetchAndRenderSettle_none_coins env page.app,
        fetchAndRenderSettle_none_currency env page.app,
        fetchAndRenderSettle_none_tableBody env page.app h⟩

theorem run_leaves_snapshot (env : Builtins) (feed : MarketFeed) :
    ∀ (es : List Event) (page : Page),
      (∀ x ∈ es, x.leavesSnapshot feed) →
      page.app.ui.tableBody ≠ none →
      (Page.run env feed page es).app.coins = page.app.coins
      ∧ (Page.run env feed page es).app.currency = page.app.currency
      ∧ (Page.run env feed page es).app.ui.tableBody ≠ none
  | [], _, _, h => ⟨rfl, rfl, h⟩
  | x :: es, page, hes, h => by
    obtain ⟨h1, h2, h3⟩ :=
      step_leaves_snapshot env feed page x (hes x (List.mem_cons_self _ _)) h
    obtain ⟨k1, k2, k3⟩ := run_leaves_snapshot env feed es
      (Page.step env feed page x) (fun y hy => hes y (List.mem_cons_of_mem _ hy)) h3
    exact ⟨k1.trans h1, k2.trans h2, k3⟩

/-- The settling of a request in flight whose `fetchMarkets` promise is fulfilled puts the
array it delivers in `this.coins` and leaves the currency of the application as it is. -/
theorem step_settle_success (env : Builtins) (feed : MarketFeed) (page : Page) (seq : Nat)
    (started : String) (data : List Coin)
    (hfind : page.inFlight.find? (fun r => decide (r.1 = seq)) = some (seq, started))
    (hdata : CryptoAPI.fetchMarkets (feed seq started) = some data) :
    (Page.step env feed page (.settle seq)).app.coins = data
    ∧ (Page.step env feed page (.settle seq)).app.currency = page.app.currency := by
  rw [Page.step_settle, hfind]
  simp only [hdata]
  exact ⟨fetchAndRenderSettle_some_coins env page.app data,
    fetchAndRenderSettle_currency env page.app (some data)⟩

/-- C9 (counterexample): the dollar quotes are held, the currency is switched to euro and, while
the euro request is still in flight, a click on the price sort draws the dollar quotes, all of
them, formatted as euro. -/
theorem old_currency_rows_after_switch :
    CryptoAPI.fetchMarkets (sampleFeed 0 "usd") = some [ethereumUsd, bitcoinUsd]
    ∧ (Page.run sampleBuiltins sampleFeed freshPage
          [.settle 0, .currency "eur", .sort "price"]).app.ui.tableBody
        = some (.rows [{ coin := ethereumUsd, flash := none, watching := false },
                       { coin := bitcoinUsd, flash := none, watching := false }] "eur")
    ∧ (Page.run sampleBuiltins sampleFeed freshPage
          [.settle 0, .currency "eur", .sort "price"]).inFlight = [(1, "eur")] := by
  decide

/-- A request started under the dollar and still in flight when the currency is switched to
euro settles after the switch: its dollar quotes replace the held coins and the sort click that
follows draws them formatted as euro, while the euro request is still in flight. -/
theorem old_currency_result_after_switch :
    (dollarPage.callFetchAndRender).inFlight = [(1, "usd")]
    ∧ (Page.run sampleBuiltins movingFeed dollarPage.callFetchAndRender
          [.currency "eur", .settle 1]).app.coins
        = [sampleCoin "bitcoin" "Bitcoin" "btc" 101 2000 1]
    ∧ (Page.run sampleBuiltins movingFeed dollarPage.callFetchAndRender
          [.currency "eur", .settle 1, .sort "price"]).app.ui.tableBody
        = some (.rows [{ coin := sampleCoin "bitcoin" "Bitcoin" "btc" 101 2000 1,
                         flash := none, watching := false }] "eur")
    ∧ (Page.run sampleBuiltins movingFeed dollarPage.callFetchAndRender
          [.currency "eur", .settle 1, .sort "price"]).inFlight = [(2, "eur")] := by
  decide

/-- C9 (amended): the switch neither clears nor marks the held coins. After it, through any
sequence of derivation events, calls of `fetchAndRender` and failing requests, the application
holds the coins it held before the switch and the new currency, and a derivation event leaves in
the table, formatted in the new currency, the rows of what `applyFilters` derives from those
coins up to the first coin whose row text cannot be built: all of it when the new currency code
is accepted and no held coin lacks its 24 hour change. A request in flight that settles with an
array, whatever currency it was started with, puts that array in `this.coins` and leaves the
currency as it is. -/
theorem derivation_after_currency_switch (env : Builtins) (feed : MarketFeed)
    (page : Page) (code : String) (es : List Event) (e : Event)
    (htable : page.app.ui.tableBody ≠ none)
    (hes : ∀ x ∈ es, x.leavesSnapshot feed)
    (he : e.isDerivation = true) :
    ((Page.run env feed (page.clickCurrency code) (es ++ [e])).app.coins = page.app.coins
      ∧ (Page.run env feed (page.clickCurrency code) (es ++ [e])).app.currency = code
      ∧ ∃ rs, (Page.run env feed (page.clickCurrency code) (es ++ [e])).app.ui.tableBody
            = some (.rows rs code)
          ∧ rs.map Row.coin
              = (applyFilters env.toLowerCase page.app.coins
                  (Page.run env feed (page.clickCurrency code) (es ++ [e])).app.ui.currentTab
                  (Page.run env feed (page.clickCurrency code) (es ++ [e])).app.watchlist
                  (Page.run env feed (page.clickCurrency code) (es ++ [e])).app.ui.sortKey
                  (Page.run env feed (page.clickCurrency code)
                    (es ++ [e])).app.ui.sortDirection
                  e.query).takeWhile
                (fun c => !rowTextThrows env.acceptsCurrency code c)
          ∧ (env.acceptsCurrency code = true →
              (∀ c ∈ page.app.coins, c.price_change_percentage_24h ≠ none) →
              rs.map Row.coin = applyFilters env.toLowerCase page.app.coins
                (Page.run env feed (page.clickCurrency code) (es ++ [e])).app.ui.currentTab
                (Page.run env feed (page.clickCurrency code) (es ++ [e])).app.watchlist
                (Page.run env feed (page.clickCurrency code) (es ++ [e])).app.ui.sortKey
                (Page.run env feed (page.clickCurrency code) (es ++ [e])).app.ui.sortDirection
                e.query))
    ∧ ∀ (later : Page) (seq : Nat) (started : String) (data : List Coin),
        later.inFlight.find? (fun r => decide (r.1 = seq)) = some (seq, started) →
        CryptoAPI.fetchMarkets (feed seq started) = some data →
        (Page.step env feed later (.settle seq)).app.coins = data
        ∧ (Page.step env feed later (.settle seq)).app.currency = later.app.currency := by
  refine ⟨?_, fun later seq started data hfind hdata =>
    step_settle_success env feed later seq started data hfind hdata⟩
  have hrun : Page.run env feed (page.clickCurrency code) (es ++ [e])
      = Page.step env feed (Page.run env feed (page.clickCurrency code) es) e := by
    simp [Page.run, List.foldl_append]
  have h0 : (page.clickCurrency code).app.ui.tableBody ≠ none := htable
  obtain ⟨k1, k2, k3⟩ := run_leaves_snapshot env feed es (page.clickCurrency code) hes h0
  obtain ⟨d1, d2, rs, d3, d4, d5⟩ := step_derivation env feed
    (Page.run env feed (page.clickCurrency code) es) e he k3
  have c1 : (page.clickCurrency code).app.coins = page.app.coins := rfl
  have c2 : (page.clickCurrency code).app.currency = code := rfl
  rw [hrun]
  rw [k1, k2, c1, c2] at d4 d5
  rw [k2, c2] at d3
  exact ⟨d1.trans (k1.trans c1), d2.trans (k2.trans c2), rs, d3, d4, d5⟩

theorem derivation_after_currency_switch_witness :
    dollarPage.app.ui.tableBody ≠ none
    ∧ (Page.run sampleBuiltins movingFeed (dollarPage.clickCurrency "eur")
        ([.tab "all", .refresh] ++ [.sort "price"])).app.coins = dollarPage.app.coins
    ∧ (Page.run sampleBuiltins movingFeed (dollarPage.clickCurrency "eur")
        ([.tab "all", .refresh] ++ [.sort "price"])).app.currency = "eur"
    ∧ (Page.step sampleBuiltins movingFeed (dollarPage.clickCurrency "eur")
        (.settle 1)).app.coins = [sampleCoin "bitcoin" "Bitcoin" "btc" 101 2000 1] :=
  ⟨by decide,
   (derivation_after_currency_switch sampleBuiltins movingFeed dollarPage "eur"
      [.tab "all", .refresh] (.sort "price") (by decide)
      (fun x hx => by
        rcases List.mem_cons.mp hx with rfl | hx
        · trivial
        · rw [List.mem_singleton.mp hx]; trivial) rfl).1.1,
   (derivation_after_currency_switch sampleBuiltins movingFeed dollarPage "eur"
      [.tab "all", .refresh] (.sort "price") (by decide)
      (fun x hx => by
        rcases List.mem_cons.mp hx with rfl | hx
        · trivial
        · rw [List.mem_singleton.mp hx]; trivial) rfl).1.2.1,
   ((derivation_after_currency_switch sampleBuiltins movingFeed dollarPage "eur"
      [.tab "all", .refresh] (.sort "price") (by decide)
      (fun x hx => by
        rcases List.mem_cons.mp hx with rfl | hx
        · trivial
        · rw [List.mem_singleton.mp hx]; trivial) rfl).2
      (dollarPage.clickCurrency "eur") 1 "eur" _ (by decide) rfl).1⟩

/-! ## Overlapping refreshes -/

theorem find_append_issued (l : List (Nat × String)) (n : Nat) (c : String)
    (rest : List (Nat × String)) (h : ∀ r ∈ l, r.1 < n) :
    (l ++ (n, c) :: rest).find? (fun r => decide (r.1 = n)) = some (n, c) := by
  induction l with
  | nil => simp
  | cons r l ih =>
    have hr : r.1 ≠ n := by
      have := h r (List.mem_cons_self _ _)
      omega
    simp only [List.cons_append, List.find?_cons, hr, decide_False]
    exact ih (fun x hx => h x (List.mem_cons_of_mem _ hx))

/-- C10 (counterexample): refresh A (request 1) and then refresh B (request 2) are issued, B
settles first and A last; the application ends up holding the result of A, the older request. -/
theorem late_result_overwrites :
    (Page.run sampleBuiltins movingFeed freshPage
        [.settle 0, .refresh, .refresh, .settle 2, .settle 1]).app.coins
      = [sampleCoin "bitcoin" "Bitcoin" "btc" 101 2000 1]
    ∧ CryptoAPI.fetchMarkets (movingFeed 1 "usd")
        = some [sampleCoin "bitcoin" "Bitcoin" "btc" 101 2000 1]
    ∧ CryptoAPI.fetchMarkets (movingFeed 2 "usd")
        = some [sampleCoin "bitcoin" "Bitcoin" "btc" 102 2000 1]
    ∧ (Page.run sampleBuiltins movingFeed freshPage
        [.settle 0, .refresh, .refresh, .settle 2, .settle 1]).inFlight = [] := by
  decide

/-- C10 (amended): results are applied in the order in which the requests settle. When refresh A
and then refresh B are issued, B settles before A and both succeed, the application holds the
result of B after B has settled and the result of A once both have settled. -/
theorem results_applied_in_settling_order (env : Builtins) (feed : MarketFeed)
    (page : Page) (resultA resultB : List Coin)
    (hwf : ∀ r ∈ page.inFlight, r.1 < page.issued)
    (hA : CryptoAPI.fetchMarkets (feed page.issued page.app.currency) = some resultA)
    (hB : CryptoAPI.fetchMarkets (feed (page.issued + 1) page.app.currency) = some resultB) :
    (Page.run env feed page
        [.refresh, .refresh, .settle (page.issued + 1)]).app.coins = resultB
    ∧ (Page.run env feed page
        [.refresh, .refresh, .settle (page.issued + 1), .settle page.issued]).app.coins
      = resultA := by
  have hfindB : (page.callFetchAndRender.callFetchAndRender).inFlight.find?
      (fun r => decide (r.1 = page.issued + 1))
      = some (page.issued + 1, page.app.currency) := by
    show ((page.inFlight ++ [(page.issued, page.app.currency)])
        ++ [(page.issued + 1, page.app.currency)]).find? _ = _
    apply find_append_issued
    intro r hr
    rcases List.mem_append.mp hr with hr | hr
    · have := hwf r hr
      omega
    · rw [List.mem_singleton.mp hr]
      exact Nat.lt_succ_self _
  have hstepB : Page.step env feed page.callFetchAndRender.callFetchAndRender
        (.settle (page.issued + 1))
      = { page.callFetchAndRender.callFetchAndRender with
          app := page.callFetchAndRender.callFetchAndRender.app.fetchAndRenderSettle env
            (some resultB),
          inFlight := page.callFetchAndRender.callFetchAndRender.inFlight.filter
            (fun r => decide (r.1 ≠ page.issued + 1)) } := by
    rw [Page.step_settle, hfindB]
    simp only
    rw [hB]
  have hfiltB : page.callFetchAndRender.callFetchAndRender.inFlight.filter
        (fun r => decide (r.1 ≠ page.issued + 1))
      = page.inFlight ++ [(page.issued, page.app.currency)] := by
    show ((page.inFlight ++ [(page.issued, page.app.currency)])
        ++ [(page.issued + 1, page.app.currency)]).filter _ = _
    rw [List.filter_append, List.filter_eq_self.mpr]
    · simp
    · intro r hr
      rcases List.mem_append.mp hr with hr | hr
      · have := hwf r hr
        simp only [ne_eq, decide_not, Bool.not_eq_eq_eq_not, Bool.not_true,
          decide_eq_false_iff_not]
        omega
      · rw [List.mem_singleton.mp hr]
        simp
  have hfindA : (page.inFlight ++ [(page.issued, page.app.currency)]).find?
      (fun r => decide (r.1 = page.issued)) = some (page.issued, page.app.currency) :=
    find_append_issued page.inFlight page.issued page.app.currency [] hwf
  constructor
  · show (Page.step env feed page.callFetchAndRender.callFetchAndRender
      (.settle (page.issued + 1))).app.coins = resultB
    rw [hstepB]
    exact fetchAndRenderSettle_some_coins env _ resultB
  · show (Page.step env feed
      (Page.step env feed page.callFetchAndRender.callFetchAndRender
        (.settle (page.issued + 1))) (.settle page.issued)).app.coins = resultA
    rw [hstepB, Page.step_settle]
    simp only [hfiltB, hfindA]
    rw [hA]
    exact fetchAndRenderSettle_some_coins env _ resultA

theorem results_applied_in_settling_order_witness :
    (Page.run sampleBuiltins movingFeed dollarPage
        [.refresh, .refresh, .settle (dollarPage.issued + 1)]).app.coins
      = [sampleCoin "bitcoin" "Bitcoin" "btc" 102 2000 1]
    ∧ (Page.run sampleBuiltins movingFeed dollarPage
        [.refresh, .refresh, .settle (dollarPage.issued + 1), .settle dollarPage.issued]).app.coins
      = [sampleCoin "bitcoin" "Bitcoin" "btc" 101 2000 1] :=
  results_applied_in_settling_order sampleBuiltins movingFeed dollarPage
    [sampleCoin "bitcoin" "Bitcoin" "btc" 101 2000 1]
    [sampleCoin "bitcoin" "Bitcoin" "btc" 102 2000 1]
    (by decide) rfl rfl

end CryptoTracker
